import Mathlib

/-!
# RoboDibuix — command-tree model and execution engine

Shallow embedding of the core of the RoboDibuix source (`App.tsx`,
`types.ts`, `constants.ts`): the command tree and its structural edit
operations, and the sequential execution engine with cooperative
cancellation.

Modelling conventions:
* JavaScript numbers holding positions/angles are modelled as `ℚ`;
  command values are `ℤ` (the data model declares them integers).
* `Math.cos (toRad d)` / `Math.sin (toRad d)` are abstracted as a
  `TrigModel` with fields `cosDeg`, `sinDeg : ℚ → ℚ` (cosine/sine of an
  angle given in degrees); theorems that need concrete trigonometric
  values take hypotheses such as `tm.cosDeg 0 = 1`.
* The shared mutable `stopRef` flag is modelled by a poll counter: each
  read of `stopRef.current` consumes one tick of a counter threaded
  through execution, and `stopAt = some k` means the k-th read (and all
  later ones) returns `true`; `stopAt = none` is a run that is never
  stopped.
* The `setRobotState` / `setPath` publications are recorded as an event
  trace (`REvent`), and the inter-step `setTimeout` suspension as a
  `delay` event, so that ordering claims are statable.
-/

namespace RoboDibuix

/-- `CommandType` enum from `types.ts`. -/
inductive CommandType where
  | FORWARD
  | BACKWARD
  | TURN_RIGHT
  | TURN_LEFT
  | REPEAT
deriving DecidableEq, Repr

/-- `Command` interface from `types.ts`: `id`, `type`, `value`, and an
optional `children` list (present only on `REPEAT` nodes in well-formed
programs, but the type does not enforce that, mirroring the source).
Identifiers (uuid strings in the source) are modelled as `ℕ`. -/
inductive Command where
  | mk (id : ℕ) (ctype : CommandType) (value : ℤ) (children : Option (List Command))

/-- Projection: the `id` field. -/
def Command.id : Command → ℕ
  | .mk i _ _ _ => i

/-- Projection: the `type` field. -/
def Command.ctype : Command → CommandType
  | .mk _ t _ _ => t

/-- Projection: the `value` field. -/
def Command.value : Command → ℤ
  | .mk _ _ v _ => v

/-- Projection: the `children` field. -/
def Command.children : Command → Option (List Command)
  | .mk _ _ _ c => c

/-- `RobotState` from `types.ts`. -/
structure RobotState where
  x : ℚ
  y : ℚ
  angle : ℚ
  penDown : Bool
deriving DecidableEq, Repr

/-- `Point` from `types.ts`. -/
structure Point where
  x : ℚ
  y : ℚ
deriving DecidableEq, Repr

/-! ## Command Tree Model (`App.tsx` helpers) -/

/-- `updateTree(cmds, parentId, updateFn)` from `App.tsx`:
if `parentId` is `null`, applies `updateFn` to the top-level list;
otherwise maps over the list, replacing a node whose `id` matches
`parentId` by `{...cmd, children: updateFn(cmd.children || [])}` and
recursing into the `children` of any node that has them. Note the
JavaScript truthiness: `cmd.children` is truthy for `some l` (even
`some []`) and falsy for `none`, and `cmd.children || []` reads `[]`
when `children` is `none`. -/
def updateTreeGo (pid : ℕ) (updateFn : List Command → List Command) :
    List Command → List Command
  | [] => []
  | cmd :: cs =>
    (match cmd with
     | .mk i t v ch =>
       if i = pid then Command.mk i t v (some (updateFn (ch.getD [])))
       else
         match ch with
         | some l => Command.mk i t v (some (updateTreeGo pid updateFn l))
         | none => Command.mk i t v none) :: updateTreeGo pid updateFn cs

/-- The `parentId = null` versus non-null dispatch of `updateTree`. -/
def updateTree (parentId : Option ℕ) (updateFn : List Command → List Command)
    (cmds : List Command) : List Command :=
  match parentId with
  | none => updateFn cmds
  | some pid => updateTreeGo pid updateFn cmds

/-- The fresh command built by `handleAddCommand` in `App.tsx`: default
value 2 for `REPEAT`, 90 for turns, 1 for movement; `children` is
`some []` for `REPEAT` and `none` otherwise. `freshId` stands for the
generated uuid. -/
def newCommand (freshId : ℕ) (t : CommandType) : Command :=
  .mk freshId t
    (if t = .REPEAT then 2
     else if t = .TURN_LEFT ∨ t = .TURN_RIGHT then 90 else 1)
    (if t = .REPEAT then some [] else none)

/-- `handleAddCommand`'s state update (`App.tsx`): insert `cmd` by
appending it to the list addressed by `activeContainerId` via
`updateTree (prev, activeContainerId, list => [...list, newCmd])`. -/
def insertCommand (activeContainerId : Option ℕ) (cmd : Command)
    (prev : List Command) : List Command :=
  updateTree activeContainerId (fun list => list ++ [cmd]) prev

/-- `recursiveFilter` from `handleRemoveCommand` in `App.tsx`:
`list.filter(c => c.id !== id).map(c => ({...c, children: c.children ?
recursiveFilter(c.children) : undefined}))`. The per-element filter and
map are fused into one recursion (both act element-wise). -/
def recursiveFilter (rid : ℕ) : List Command → List Command
  | [] => []
  | c :: cs =>
    match c with
    | .mk i t v ch =>
      if i = rid then recursiveFilter rid cs
      else
        (match ch with
         | some l => Command.mk i t v (some (recursiveFilter rid l))
         | none => Command.mk i t v none) :: recursiveFilter rid cs

/-- `recursiveUpdate` from `handleUpdateCommand` in `App.tsx`:
`list.map(c => { if (c.id === id) return {...c, value}; if (c.children)
return {...c, children: recursiveUpdate(c.children)}; return c; })`. -/
def recursiveUpdate (uid : ℕ) (newValue : ℤ) : List Command → List Command
  | [] => []
  | c :: cs =>
    (match c with
     | .mk i t v ch =>
       if i = uid then Command.mk i t newValue ch
       else
         match ch with
         | some l => Command.mk i t v (some (recursiveUpdate uid newValue l))
         | none => Command.mk i t v none) :: recursiveUpdate uid newValue cs

/-- `findById` from `getVisibleCommands` in `App.tsx`: first node (in
depth-first, declaration order) whose `id` matches, searching each
node before its children's subtrees. -/
def findById (fid : ℕ) : List Command → Option Command
  | [] => none
  | c :: cs =>
    match c with
    | .mk i t v ch =>
      if i = fid then some (.mk i t v ch)
      else
        match ch with
        | some l =>
          match findById fid l with
          | some found => some found
          | none => findById fid cs
        | none => findById fid cs

mutual

/-- All identifiers occurring in one command's subtree (auxiliary, used
to state "the identifier is absent from the tree"). -/
def idsInCmd : Command → List ℕ
  | .mk i _ _ ch =>
    i :: (match ch with
          | some l => idsIn l
          | none => [])
termination_by c => sizeOf c

/-- All identifiers occurring anywhere in a forest. -/
def idsIn : List Command → List ℕ
  | [] => []
  | c :: cs => idsInCmd c ++ idsIn cs
termination_by l => sizeOf l

end

/-! ## Constants (`constants.ts`) -/

/-- `GRID_SIZE` from `constants.ts`. -/
def GRID_SIZE : ℚ := 40

/-- `CANVAS_WIDTH` from `constants.ts`. -/
def CANVAS_WIDTH : ℚ := 800

/-- `CANVAS_HEIGHT` from `constants.ts`. -/
def CANVAS_HEIGHT : ℚ := 600

/-- `START_X` from `constants.ts` (canvas centre). -/
def START_X : ℚ := CANVAS_WIDTH / 2

/-- `START_Y` from `constants.ts` (canvas centre). -/
def START_Y : ℚ := CANVAS_HEIGHT / 2

/-- `START_ANGLE` from `constants.ts` (pointing up). -/
def START_ANGLE : ℚ := -90

/-! ## Execution Engine (`App.tsx`) -/

/-- Abstraction of `Math.cos(toRad d)` and `Math.sin(toRad d)`:
cosine and sine of an angle given in degrees (the degree-to-radian
conversion `toRad` is folded into the abstraction). -/
structure TrigModel where
  cosDeg : ℚ → ℚ
  sinDeg : ℚ → ℚ

/-- Observable side effects of a run: the inter-step `setTimeout`
suspension, each `setRobotState` publication, and each `setPath`
append, in program order. -/
inductive REvent where
  | delay
  | poseUpdate (r : RobotState)
  | pathAppend (p : Point)
deriving DecidableEq, Repr

/-- Result of executing a command or a sequence: the threaded
`currentRobot` value, the emitted event trace, and the poll counter
after execution (each read of `stopRef.current` consumes one tick). -/
structure ExecResult where
  robot : RobotState
  events : List REvent
  pc : ℕ
deriving DecidableEq, Repr

/-- One read of `stopRef.current` at poll tick `pc`: with
`stopAt = some k` the reads from tick `k` on return `true`
(stop was requested between the `k-1`-st and `k`-th reads);
with `stopAt = none` the flag is never set. -/
def stopped (stopAt : Option ℕ) (pc : ℕ) : Bool :=
  match stopAt with
  | none => false
  | some k => decide (k ≤ pc)

mutual

/-- `executeCommand(cmd, currentRobot)` from `App.tsx`: checks
`stopRef.current` once on entry (returning `currentRobot` unchanged if
set), suspends for `ANIMATION_DELAY`, then dispatches on the command
type. Movement updates position by
`cos/sin(toRad angle) * (value * GRID_SIZE) * (±1)`, publishes the new
pose and appends one path point; turns add `value * (±1)` to the angle
and publish the new pose; `REPEAT` runs its children `value` times
(checking the flag after each pass), publishing nothing itself. -/
def executeCommand (tm : TrigModel) (stopAt : Option ℕ) (gridSize : ℚ)
    (cmd : Command) (currentRobot : RobotState) (pc : ℕ) : ExecResult :=
  if stopped stopAt pc then ⟨currentRobot, [], pc + 1⟩
  else
    let pc := pc + 1
    match cmd with
    | .mk _ t v ch =>
      match t with
      | .FORWARD | .BACKWARD =>
        let distance : ℚ := (v : ℚ) * gridSize
        let direction : ℚ := if t = .FORWARD then 1 else -1
        let dx := tm.cosDeg currentRobot.angle * distance * direction
        let dy := tm.sinDeg currentRobot.angle * distance * direction
        let nextRobot := { currentRobot with
                             x := currentRobot.x + dx, y := currentRobot.y + dy }
        ⟨nextRobot,
         [.delay, .poseUpdate nextRobot, .pathAppend ⟨nextRobot.x, nextRobot.y⟩],
         pc⟩
      | .TURN_LEFT | .TURN_RIGHT =>
        let turn : ℚ := if t = .TURN_RIGHT then 1 else -1
        let nextRobot := { currentRobot with
                             angle := currentRobot.angle + (v : ℚ) * turn }
        ⟨nextRobot, [.delay, .poseUpdate nextRobot], pc⟩
      | .REPEAT =>
        match ch with
        | some l =>
          let res := repeatLoop tm stopAt gridSize v.toNat l currentRobot pc
          ⟨res.robot, .delay :: res.events, res.pc⟩
        | none => ⟨currentRobot, [.delay], pc⟩

/-- The `for (let i = 0; i < cmd.value; i++)` loop inside the `REPEAT`
case: run the child sequence, then check `stopRef.current` (one poll)
and break if set. `n` is the number of remaining iterations
(`cmd.value.toNat` initially: a non-positive count runs zero times). -/
def repeatLoop (tm : TrigModel) (stopAt : Option ℕ) (gridSize : ℚ)
    (n : ℕ) (l : List Command) (currentRobot : RobotState) (pc : ℕ) : ExecResult :=
  match n with
  | 0 => ⟨currentRobot, [], pc⟩
  | n + 1 =>
    let res := runSequence tm stopAt gridSize l currentRobot pc
    if stopped stopAt res.pc then ⟨res.robot, res.events, res.pc + 1⟩
    else
      let rest := repeatLoop tm stopAt gridSize n l res.robot (res.pc + 1)
      ⟨rest.robot, res.events ++ rest.events, rest.pc⟩

/-- `runSequence(sequence, startState)` from `App.tsx`: for each
command in order, check `stopRef.current` (break if set) then execute
the command, threading the robot state. -/
def runSequence (tm : TrigModel) (stopAt : Option ℕ) (gridSize : ℚ)
    (sequence : List Command) (startState : RobotState) (pc : ℕ) : ExecResult :=
  match sequence with
  | [] => ⟨startState, [], pc⟩
  | c :: cs =>
    if stopped stopAt pc then ⟨startState, [], pc + 1⟩
    else
      let res := executeCommand tm stopAt gridSize c startState (pc + 1)
      let rest := runSequence tm stopAt gridSize cs res.robot res.pc
      ⟨rest.robot, res.events ++ rest.events, rest.pc⟩

end

/-- The path points appended by a trace (`setPath(prev => [...prev, p])`
calls, in order). -/
def pathOf (events : List REvent) : List Point :=
  events.filterMap (fun e =>
    match e with
    | .pathAppend p => some p
    | _ => none)

/-- The poses published by a trace (`setRobotState` calls, in order). -/
def posesOf (events : List REvent) : List RobotState :=
  events.filterMap (fun e =>
    match e with
    | .poseUpdate r => some r
    | _ => none)

/-- The origin pose: `resetPosition` / the fresh state built in
`handleRun` (`{x: START_X, y: START_Y, angle: START_ANGLE, penDown: true}`). -/
def startRobot : RobotState := ⟨START_X, START_Y, START_ANGLE, true⟩

/-- The origin path point `{x: START_X, y: START_Y}`. -/
def startPoint : Point := ⟨START_X, START_Y⟩

/-- The application state touched by `handleRun` (the React `useState`
pieces: `commands`, `activeContainerId`, `robotState`, `path`,
`isPlaying`). The `stopRef` flag is modelled externally by `stopAt`. -/
structure AppState where
  commands : List Command
  activeContainerId : Option ℕ
  robot : RobotState
  path : List Point
  isPlaying : Bool

/-- `handleRun` from `App.tsx`, run to completion: returns immediately
if `commands` is empty; otherwise sets `isPlaying`, clears the stop
flag, resets pose and path to the origin, and drives `runSequence`
over the whole program from the fresh start state. The resulting
published state replays the event trace over the reset state: the
robot is the last published pose (or the origin if none), the path is
the origin point followed by every appended sample, and `isPlaying` is
cleared again on exit. -/
def handleRun (tm : TrigModel) (stopAt : Option ℕ) (st : AppState) : AppState :=
  match st.commands with
  | [] => st
  | _ :: _ =>
    let res := runSequence tm stopAt GRID_SIZE st.commands startRobot 0
    { st with
        robot := (posesOf res.events).getLast?.getD startRobot
        path := startPoint :: pathOf res.events
        isPlaying := false }

/-! ## Spec-side measures for counting claims -/

mutual

/-- Number of leaf commands (movement or turn) a full, uncancelled
execution of one command performs: 1 for a leaf, `value` times the
children's count for `REPEAT` (0 if `children` is absent). -/
def countLeavesCmd : Command → ℕ
  | .mk _ t v ch =>
    match t with
    | .REPEAT =>
      (match ch with
       | some l => v.toNat * countLeaves l
       | none => 0)
    | _ => 1
termination_by c => sizeOf c

/-- Leaf-command count of a full execution of a sequence. -/
def countLeaves : List Command → ℕ
  | [] => 0
  | c :: cs => countLeavesCmd c + countLeaves cs
termination_by l => sizeOf l

end

mutual

/-- Number of movement commands (`FORWARD`/`BACKWARD`) a full,
uncancelled execution of one command performs. -/
def countMovesCmd : Command → ℕ
  | .mk _ t v ch =>
    match t with
    | .FORWARD | .BACKWARD => 1
    | .TURN_LEFT | .TURN_RIGHT => 0
    | .REPEAT =>
      (match ch with
       | some l => v.toNat * countMoves l
       | none => 0)
termination_by c => sizeOf c

/-- Movement-command count of a full execution of a sequence. -/
def countMoves : List Command → ℕ
  | [] => 0
  | c :: cs => countMovesCmd c + countMoves cs
termination_by l => sizeOf l

end

/-- Spec-side description of `Repeat` semantics: the event trace of
running the child sequence `n` times sequentially, each full pass
started from the pose the previous pass reached (uncancelled runs). -/
def unrollEvents (tm : TrigModel) (gs : ℚ) (l : List Command) :
    ℕ → RobotState → List REvent
  | 0, _ => []
  | n + 1, r =>
    (runSequence tm none gs l r 0).events ++
      unrollEvents tm gs l n (runSequence tm none gs l r 0).robot

/-! ## Object-identity instrumentation for `recursiveUpdate`

`handleUpdateCommand`'s claim about *referential* equality needs object
identity, so we re-embed the update with every node carrying an
allocation tag `ref` (its JavaScript object identity). Every object
literal the source evaluates (`{...c, value}` or `{...c, children: X}`)
allocates a fresh object: the embedding threads a fresh-tag counter and
stamps a new `ref` exactly at those two spots; `return c` keeps the old
tag. A child list is rebuilt before its parent's literal is evaluated,
matching JavaScript evaluation order. -/

/-- `Command` with an object-identity tag `ref`. -/
inductive OCommand where
  | mk (ref : ℕ) (id : ℕ) (ctype : CommandType) (value : ℤ) (children : Option (List OCommand))

/-- Projection: the identity tag. -/
def OCommand.ref : OCommand → ℕ
  | .mk ρ _ _ _ _ => ρ

/-- Projection: the `id` field. -/
def OCommand.id : OCommand → ℕ
  | .mk _ i _ _ _ => i

/-- Projection: the `value` field. -/
def OCommand.value : OCommand → ℤ
  | .mk _ _ _ v _ => v

/-- Projection: the `children` field. -/
def OCommand.children : OCommand → Option (List OCommand)
  | .mk _ _ _ _ c => c

mutual

/-- One element of `recursiveUpdate`'s `list.map`: `{...c, value}` for
the target (fresh object, `children` shared), `{...c, children:
recursiveUpdate(c.children)}` for any node with children (fresh object),
and `c` itself (same object) otherwise. Returns the node and the
advanced fresh-tag counter. -/
def updAllocCmd (uid : ℕ) (newValue : ℤ) (c : OCommand) (fresh : ℕ) :
    OCommand × ℕ :=
  match c with
  | .mk _ i t v ch =>
    if i = uid then (.mk fresh i t newValue ch, fresh + 1)
    else
      match ch with
      | some l =>
        (let res := updAllocList uid newValue l fresh
         (.mk res.2 i t v (some res.1), res.2 + 1))
      | none => (c, fresh)
termination_by sizeOf c

/-- `recursiveUpdate` over identity-tagged nodes: maps `updAllocCmd`
left to right, threading the fresh-tag counter. -/
def updAllocList (uid : ℕ) (newValue : ℤ) (l : List OCommand) (fresh : ℕ) :
    List OCommand × ℕ :=
  match l with
  | [] => ([], fresh)
  | c :: cs =>
    let rc := updAllocCmd uid newValue c fresh
    let rcs := updAllocList uid newValue cs rc.2
    (rc.1 :: rcs.1, rcs.2)
termination_by sizeOf l

end

mutual

/-- All identity tags occurring in a tree. -/
def refsInCmd : OCommand → List ℕ
  | .mk ρ _ _ _ ch =>
    ρ :: (match ch with
          | some l => refsInList l
          | none => [])
termination_by c => sizeOf c

/-- All identity tags occurring in a forest. -/
def refsInList : List OCommand → List ℕ
  | [] => []
  | c :: cs => refsInCmd c ++ refsInList cs
termination_by l => sizeOf l

end

/-- `c` occurs as a node (the very same object) somewhere in a forest. -/
inductive OccursIn : OCommand → List OCommand → Prop where
  | head (c : OCommand) (cs : List OCommand) : OccursIn c (c :: cs)
  | tail {c d : OCommand} {cs : List OCommand} :
      OccursIn c cs → OccursIn c (d :: cs)
  | child {c : OCommand} {ρ i : ℕ} {t : CommandType} {v : ℤ}
      {l : List OCommand} {cs : List OCommand} :
      OccursIn c l → OccursIn c (OCommand.mk ρ i t v (some l) :: cs)

/-- A concrete trig model with `cosDeg ≡ 1`, `sinDeg ≡ 0`; it agrees
with real cosine/sine at angle 0 degrees, the only angle at which
witnesses below evaluate trigonometric functions. -/
def tmUnit : TrigModel := ⟨fun _ => 1, fun _ => 0⟩

/-! ## Concrete example data used by witnesses and counterexamples -/

/-- A program with a nested `REPEAT` and a turn (ids 1, 2, 3). -/
def progNested : List Command :=
  [.mk 1 .REPEAT 2 (some [.mk 2 .FORWARD 1 none]), .mk 3 .TURN_LEFT 90 none]

/-- A forward command followed by a turn (ids 1, 2). -/
def progMoveTurn : List Command :=
  [.mk 1 .FORWARD 1 none, .mk 2 .TURN_RIGHT 90 none]

/-- An identity-tagged program: a `REPEAT` node (object 0, id 10)
followed by a `FORWARD` leaf (object 1, id 11). -/
def oprogPair : List OCommand :=
  [.mk 0 10 .REPEAT 2 (some []), .mk 1 11 .FORWARD 1 none]

/-- An identity-tagged program with a leaf nested inside the `REPEAT`:
object 0 is a `REPEAT` (id 10) containing object 1 (id 12), and
object 2 is a top-level `FORWARD` leaf (id 11). -/
def oprogTriple : List OCommand :=
  [.mk 0 10 .REPEAT 2 (some [.mk 1 12 .BACKWARD 3 none]),
   .mk 2 11 .FORWARD 1 none]

/-- Per-node frame relation between a node of the input program and
the node the instrumented `recursiveUpdate` produces at the same
position, relative to the allocation watermark `f₀` (all pre-existing
tags are below `f₀`, every tag the update stamps is at least `f₀`):
an off-path leaf is the very same object; a children-bearing node or
the target is a freshly allocated object; the target keeps its
children list shared and only its `value` replaced. -/
def UpdFrame (uid : ℕ) (nv : ℤ) (f₀ : ℕ) (old new : OCommand) : Prop :=
  (old.children = none → old.id ≠ uid → new = old) ∧
  ((old.children ≠ none ∨ old.id = uid) → f₀ ≤ new.ref) ∧
  (old.id = uid →
    new.children = old.children ∧ new.id = old.id ∧ new.value = nv)

/-- An app state in which a run is marked in progress
(`isPlaying = true`) with a robot and path away from the origin. -/
def stPlaying : AppState :=
  { commands := [.mk 1 .TURN_RIGHT 90 none]
    activeContainerId := none
    robot := ⟨0, 0, 0, true⟩
    path := [⟨0, 0⟩]
    isPlaying := true }

/-! # Helper lemmas -/

/-- `updateTreeGo` is a structural no-op when the target identifier is
absent from the forest. -/
theorem updateTreeGo_absent_noop (pid : ℕ) (fn : List Command → List Command) :
    ∀ (l : List Command), pid ∉ idsIn l → updateTreeGo pid fn l = l := by
  intro l
  induction l using updateTreeGo.induct pid fn with
  | case1 => simp [updateTreeGo]
  | case2 cmd cs ih1 ih2 =>
    intro h
    obtain ⟨i, t, v, ch⟩ := cmd
    cases ch with
    | some l' =>
      simp only [idsIn, idsInCmd, List.mem_append, List.mem_cons, not_or] at h
      simp only [updateTreeGo, if_neg (Ne.symm h.1.1)]
      rw [ih1 h.1.2, ih2 h.2]
    | none =>
      simp only [idsIn, idsInCmd, List.mem_append, List.mem_cons, not_or] at h
      simp only [updateTreeGo, if_neg (Ne.symm h.1.1)]
      rw [ih2 h.2]

mutual

/-- The fresh-tag counter never decreases across `updAllocCmd`. -/
theorem updAllocCmd_mono (uid : ℕ) (nv : ℤ) (c : OCommand) (fresh : ℕ) :
    fresh ≤ (updAllocCmd uid nv c fresh).2 := by
  obtain ⟨ρ, i, t, v, ch⟩ := c
  by_cases h : i = uid
  · subst h
    rw [updAllocCmd.eq_def]
    simp
  · cases ch with
    | some l =>
      have := updAllocList_mono uid nv l fresh
      simp only [updAllocCmd, h, if_false, reduceIte]
      omega
    | none => simp [updAllocCmd, h]

/-- The fresh-tag counter never decreases across `updAllocList`. -/
theorem updAllocList_mono (uid : ℕ) (nv : ℤ) (l : List OCommand) (fresh : ℕ) :
    fresh ≤ (updAllocList uid nv l fresh).2 := by
  cases l with
  | nil => simp [updAllocList]
  | cons c cs =>
    have h1 := updAllocCmd_mono uid nv c fresh
    have h2 := updAllocList_mono uid nv cs (updAllocCmd uid nv c fresh).2
    simp only [updAllocList]
    omega

end

/-- `UpdFrame` weakens along a smaller allocation watermark. -/
theorem UpdFrame.mono {uid : ℕ} {nv : ℤ} {f₀ f₁ : ℕ} (h : f₀ ≤ f₁)
    {old new : OCommand} (hf : UpdFrame uid nv f₁ old new) :
    UpdFrame uid nv f₀ old new :=
  ⟨hf.1, fun hc => le_trans h (hf.2.1 hc), hf.2.2⟩

/-- Prefixes are preserved by consing the same head. -/
theorem prefix_cons_same {α : Type} (a : α) {l₁ l₂ : List α}
    (h : l₁ <+: l₂) : a :: l₁ <+: a :: l₂ := by
  obtain ⟨t, rfl⟩ := h
  exact ⟨t, rfl⟩

/-- Prefixes are preserved by appending the same list on the left. -/
theorem prefix_append_same {α : Type} (e : List α) {l₁ l₂ : List α}
    (h : l₁ <+: l₂) : e ++ l₁ <+: e ++ l₂ := by
  obtain ⟨t, rfl⟩ := h
  exact ⟨t, by simp⟩

/-- `pathOf` is monotone with respect to trace prefixes. -/
theorem pathOf_prefix_mono {e₁ e₂ : List REvent} (h : e₁ <+: e₂) :
    pathOf e₁ <+: pathOf e₂ := by
  obtain ⟨t, rfl⟩ := h
  exact ⟨pathOf t, by simp [pathOf, List.filterMap_append]⟩

/-- A sequence run started with the stop flag already observable
executes nothing: no events, the robot unchanged, the poll counter not
decreased. -/
theorem runSequence_stopped (tm : TrigModel) (gs : ℚ) (k : ℕ)
    (cs : List Command) (r : RobotState) (pc : ℕ) (h : k ≤ pc) :
    (runSequence tm (some k) gs cs r pc).events = [] ∧
    (runSequence tm (some k) gs cs r pc).robot = r ∧
    pc ≤ (runSequence tm (some k) gs cs r pc).pc := by
  cases cs with
  | nil => simp [runSequence]
  | cons c cs => simp [runSequence, stopped, h]

mutual

/-- With `stopAt = none` the published robot and event trace do not
depend on the incoming poll-counter value (commands). -/
theorem exec_none_shift (tm : TrigModel) (gs : ℚ) (c : Command)
    (r : RobotState) (pc pc' : ℕ) :
    (executeCommand tm none gs c r pc).robot =
      (executeCommand tm none gs c r pc').robot ∧
    (executeCommand tm none gs c r pc).events =
      (executeCommand tm none gs c r pc').events := by
  obtain ⟨i, t, v, ch⟩ := c
  cases t with
  | REPEAT =>
    cases ch with
    | some l =>
      have hl := loop_none_shift tm gs v.toNat l r (pc + 1) (pc' + 1)
      simp only [executeCommand, stopped, Bool.false_eq_true, if_false,
        reduceIte]
      exact ⟨hl.1, by rw [hl.2]⟩
    | none => simp [executeCommand, stopped]
  | FORWARD => simp [executeCommand, stopped]
  | BACKWARD => simp [executeCommand, stopped]
  | TURN_LEFT => simp [executeCommand, stopped]
  | TURN_RIGHT => simp [executeCommand, stopped]

/-- With `stopAt = none` the published robot and event trace do not
depend on the incoming poll-counter value (repeat loop). -/
theorem loop_none_shift (tm : TrigModel) (gs : ℚ) (n : ℕ)
    (l : List Command) (r : RobotState) (pc pc' : ℕ) :
    (repeatLoop tm none gs n l r pc).robot =
      (repeatLoop tm none gs n l r pc').robot ∧
    (repeatLoop tm none gs n l r pc).events =
      (repeatLoop tm none gs n l r pc').events := by
  cases n with
  | zero => simp [repeatLoop]
  | succ n =>
    have hs := seq_none_shift tm gs l r pc pc'
    have hl := loop_none_shift tm gs n l
      (runSequence tm none gs l r pc').robot
      ((runSequence tm none gs l r pc).pc + 1)
      ((runSequence tm none gs l r pc').pc + 1)
    simp only [repeatLoop, stopped, Bool.false_eq_true, if_false, reduceIte]
    rw [hs.1, hs.2]
    exact ⟨hl.1, by rw [hl.2]⟩

/-- With `stopAt = none` the published robot and event trace do not
depend on the incoming poll-counter value (sequences). -/
theorem seq_none_shift (tm : TrigModel) (gs : ℚ) (l : List Command)
    (r : RobotState) (pc pc' : ℕ) :
    (runSequence tm none gs l r pc).robot =
      (runSequence tm none gs l r pc').robot ∧
    (runSequence tm none gs l r pc).events =
      (runSequence tm none gs l r pc').events := by
  cases l with
  | nil => simp [runSequence]
  | cons c cs =>
    have he := exec_none_shift tm gs c r (pc + 1) (pc' + 1)
    have hr := seq_none_shift tm gs cs
      (executeCommand tm none gs c r (pc' + 1)).robot
      (executeCommand tm none gs c r (pc + 1)).pc
      (executeCommand tm none gs c r (pc' + 1)).pc
    simp only [runSequence, stopped, Bool.false_eq_true, if_false, reduceIte]
    rw [he.1, he.2]
    exact ⟨hr.1, by rw [hr.2]⟩

end

mutual

/-- Event counts of a full (uncancelled) execution of one command:
one pose update per leaf descendant executed, one path sample per
movement leaf executed. -/
theorem exec_none_counts (tm : TrigModel) (gs : ℚ) (c : Command)
    (r : RobotState) (pc : ℕ) :
    (posesOf (executeCommand tm none gs c r pc).events).length =
      countLeavesCmd c ∧
    (pathOf (executeCommand tm none gs c r pc).events).length =
      countMovesCmd c := by
  obtain ⟨i, t, v, ch⟩ := c
  cases t with
  | REPEAT =>
    cases ch with
    | some l =>
      have hl := loop_none_counts tm gs v.toNat l r (pc + 1)
      simp only [executeCommand, stopped, Bool.false_eq_true, if_false,
        reduceIte, posesOf, pathOf, List.filterMap_cons] at hl ⊢
      simpa [countLeavesCmd, countMovesCmd] using hl
    | none => simp [executeCommand, stopped, posesOf, pathOf,
        countLeavesCmd, countMovesCmd]
  | FORWARD => simp [executeCommand, stopped, posesOf, pathOf,
      countLeavesCmd, countMovesCmd]
  | BACKWARD => simp [executeCommand, stopped, posesOf, pathOf,
      countLeavesCmd, countMovesCmd]
  | TURN_LEFT => simp [executeCommand, stopped, posesOf, pathOf,
      countLeavesCmd, countMovesCmd]
  | TURN_RIGHT => simp [executeCommand, stopped, posesOf, pathOf,
      countLeavesCmd, countMovesCmd]

/-- Event counts of `n` full passes of the repeat loop. -/
theorem loop_none_counts (tm : TrigModel) (gs : ℚ) (n : ℕ)
    (l : List Command) (r : RobotState) (pc : ℕ) :
    (posesOf (repeatLoop tm none gs n l r pc).events).length =
      n * countLeaves l ∧
    (pathOf (repeatLoop tm none gs n l r pc).events).length =
      n * countMoves l := by
  cases n with
  | zero => simp [repeatLoop, posesOf, pathOf]
  | succ n =>
    have hs := seq_none_counts tm gs l r pc
    have hl := loop_none_counts tm gs n l
      (runSequence tm none gs l r pc).robot
      ((runSequence tm none gs l r pc).pc + 1)
    simp only [repeatLoop, stopped, Bool.false_eq_true, if_false, reduceIte,
      posesOf, pathOf, List.filterMap_append, List.length_append] at hs hl ⊢
    rw [hs.1, hs.2, hl.1, hl.2]
    constructor <;> ring

/-- Event counts of a full (uncancelled) run of a sequence. -/
theorem seq_none_counts (tm : TrigModel) (gs : ℚ) (l : List Command)
    (r : RobotState) (pc : ℕ) :
    (posesOf (runSequence tm none gs l r pc).events).length =
      countLeaves l ∧
    (pathOf (runSequence tm none gs l r pc).events).length =
      countMoves l := by
  cases l with
  | nil => simp [runSequence, posesOf, pathOf, countLeaves, countMoves]
  | cons c cs =>
    have he := exec_none_counts tm gs c r (pc + 1)
    have hr := seq_none_counts tm gs cs
      (executeCommand tm none gs c r (pc + 1)).robot
      (executeCommand tm none gs c r (pc + 1)).pc
    simp only [runSequence, stopped, Bool.false_eq_true, if_false, reduceIte,
      posesOf, pathOf, List.filterMap_append, List.length_append] at he hr ⊢
    rw [he.1, he.2, hr.1, hr.2]
    simp [countLeaves, countMoves, posesOf, pathOf]

end

/-- A command entered with the stop flag already observable returns
immediately: no delay, no effects, one poll consumed. -/
theorem executeCommand_stopped (tm : TrigModel) (gs : ℚ) (k : ℕ)
    (c : Command) (r : RobotState) (pc : ℕ) (h : k ≤ pc) :
    executeCommand tm (some k) gs c r pc = ⟨r, [], pc + 1⟩ := by
  rw [executeCommand.eq_def]
  simp [stopped, h]

/-- Uncancelled repeat loop: `n` passes of the child sequence run
sequentially, each from the pose the previous pass reached; the robot
is the `n`-fold iterate of one full pass and the events are the
concatenation of the per-pass traces. -/
theorem loop_none_unroll (tm : TrigModel) (gs : ℚ) (l : List Command) :
    ∀ (n : ℕ) (r : RobotState) (pc : ℕ),
      (repeatLoop tm none gs n l r pc).robot =
        (fun s => (runSequence tm none gs l s 0).robot)^[n] r ∧
      (repeatLoop tm none gs n l r pc).events = unrollEvents tm gs l n r := by
  intro n
  induction n with
  | zero =>
    intro r pc
    simp [repeatLoop, unrollEvents]
  | succ n ih =>
    intro r pc
    have hs := seq_none_shift tm gs l r pc 0
    simp only [repeatLoop, stopped, Bool.false_eq_true, if_false, reduceIte]
    constructor
    · rw [Function.iterate_succ_apply]
      rw [hs.1]
      exact (ih _ _).1
    · rw [hs.2, hs.1, (ih _ _).2]
      simp [unrollEvents]

mutual

/-- Cancellation invariant (commands): the cancelled run's trace is a
prefix of the uncancelled run's, and if the cancelled run never
observed the flag (final counter still at most `k`) the two runs are
identical. -/
theorem exec_cancel_inv (tm : TrigModel) (gs : ℚ) (k : ℕ)
    (c : Command) (r : RobotState) (pc : ℕ) :
    (executeCommand tm (some k) gs c r pc).events <+:
      (executeCommand tm none gs c r pc).events ∧
    ((executeCommand tm (some k) gs c r pc).pc ≤ k →
      executeCommand tm (some k) gs c r pc =
        executeCommand tm none gs c r pc) := by
  by_cases h : k ≤ pc
  · have h1 := executeCommand_stopped tm gs k c r pc h
    constructor
    · rw [h1]
      exact List.nil_prefix
    · intro hle
      rw [h1] at hle
      simp at hle
      omega
  · have hsf : stopped (some k) pc = false := by
      simp only [stopped, decide_eq_false_iff_not]
      omega
    have hnstop : stopped none pc = false := rfl
    obtain ⟨i, t, v, ch⟩ := c
    cases t with
    | REPEAT =>
      cases ch with
      | some l =>
        have hl := loop_cancel_inv tm gs k v.toNat l r (pc + 1)
        constructor
        · simp only [executeCommand, hsf, hnstop, Bool.false_eq_true,
            if_false, reduceIte]
          exact prefix_cons_same _ hl.1
        · intro hle
          simp only [executeCommand, hsf, hnstop, Bool.false_eq_true,
            if_false, reduceIte] at hle ⊢
          rw [hl.2 hle]
      | none =>
        have heq : executeCommand tm (some k) gs (.mk i .REPEAT v none) r pc =
            executeCommand tm none gs (.mk i .REPEAT v none) r pc := by
          simp [executeCommand, hsf, hnstop]
        exact ⟨heq ▸ List.prefix_rfl, fun _ => heq⟩
    | FORWARD =>
      have heq : executeCommand tm (some k) gs (.mk i .FORWARD v ch) r pc =
          executeCommand tm none gs (.mk i .FORWARD v ch) r pc := by
        simp [executeCommand, hsf, hnstop]
      exact ⟨heq ▸ List.prefix_rfl, fun _ => heq⟩
    | BACKWARD =>
      have heq : executeCommand tm (some k) gs (.mk i .BACKWARD v ch) r pc =
          executeCommand tm none gs (.mk i .BACKWARD v ch) r pc := by
        simp [executeCommand, hsf, hnstop]
      exact ⟨heq ▸ List.prefix_rfl, fun _ => heq⟩
    | TURN_LEFT =>
      have heq : executeCommand tm (some k) gs (.mk i .TURN_LEFT v ch) r pc =
          executeCommand tm none gs (.mk i .TURN_LEFT v ch) r pc := by
        simp [executeCommand, hsf, hnstop]
      exact ⟨heq ▸ List.prefix_rfl, fun _ => heq⟩
    | TURN_RIGHT =>
      have heq : executeCommand tm (some k) gs (.mk i .TURN_RIGHT v ch) r pc =
          executeCommand tm none gs (.mk i .TURN_RIGHT v ch) r pc := by
        simp [executeCommand, hsf, hnstop]
      exact ⟨heq ▸ List.prefix_rfl, fun _ => heq⟩

/-- Cancellation invariant (repeat loop). -/
theorem loop_cancel_inv (tm : TrigModel) (gs : ℚ) (k : ℕ) (n : ℕ)
    (l : List Command) (r : RobotState) (pc : ℕ) :
    (repeatLoop tm (some k) gs n l r pc).events <+:
      (repeatLoop tm none gs n l r pc).events ∧
    ((repeatLoop tm (some k) gs n l r pc).pc ≤ k →
      repeatLoop tm (some k) gs n l r pc = repeatLoop tm none gs n l r pc) := by
  cases n with
  | zero =>
    refine ⟨?_, fun _ => ?_⟩ <;> simp only [repeatLoop]
    exact List.prefix_rfl
  | succ n =>
    have hseq := seq_cancel_inv tm gs k l r pc
    have hs2stop : stopped none (runSequence tm none gs l r pc).pc = false :=
      rfl
    by_cases h2 : (runSequence tm (some k) gs l r pc).pc ≤ k
    · have heq : runSequence tm (some k) gs l r pc =
          runSequence tm none gs l r pc := hseq.2 h2
      by_cases h3 : k ≤ (runSequence tm (some k) gs l r pc).pc
      · have hstop : stopped (some k) (runSequence tm (some k) gs l r pc).pc
            = true := by simp [stopped, h3]
        constructor
        · simp only [repeatLoop, hstop, hs2stop, if_true, Bool.false_eq_true,
            if_false, reduceIte]
          rw [heq]
          exact List.prefix_append _ _
        · intro hle
          simp only [repeatLoop, hstop, if_true, reduceIte] at hle
          omega
      · have hstop : stopped (some k) (runSequence tm (some k) gs l r pc).pc
            = false := by
          simp only [stopped, decide_eq_false_iff_not]
          omega
        have hl := loop_cancel_inv tm gs k n l
          (runSequence tm (some k) gs l r pc).robot
          ((runSequence tm (some k) gs l r pc).pc + 1)
        constructor
        · simp only [repeatLoop, hstop, hs2stop, Bool.false_eq_true,
            if_false, reduceIte]
          rw [← heq]
          exact prefix_append_same _ hl.1
        · intro hle
          simp only [repeatLoop, hstop, hs2stop, Bool.false_eq_true,
            if_false, reduceIte] at hle ⊢
          rw [← heq]
          rw [hl.2 hle]
    · have h3 : k ≤ (runSequence tm (some k) gs l r pc).pc := by omega
      have hstop : stopped (some k) (runSequence tm (some k) gs l r pc).pc
          = true := by simp [stopped, h3]
      constructor
      · simp only [repeatLoop, hstop, hs2stop, if_true, Bool.false_eq_true,
          if_false, reduceIte]
        exact hseq.1.trans (List.prefix_append _ _)
      · intro hle
        simp only [repeatLoop, hstop, if_true, reduceIte] at hle
        omega

/-- Cancellation invariant (sequences): the trace the cancelled run
has produced is always a prefix of the full run's. -/
theorem seq_cancel_inv (tm : TrigModel) (gs : ℚ) (k : ℕ)
    (l : List Command) (r : RobotState) (pc : ℕ) :
    (runSequence tm (some k) gs l r pc).events <+:
      (runSequence tm none gs l r pc).events ∧
    ((runSequence tm (some k) gs l r pc).pc ≤ k →
      runSequence tm (some k) gs l r pc = runSequence tm none gs l r pc) := by
  cases l with
  | nil =>
    refine ⟨?_, fun _ => ?_⟩ <;> simp only [runSequence]
    exact List.prefix_rfl
  | cons c cs =>
    by_cases h : k ≤ pc
    · have hstop : stopped (some k) pc = true := by simp [stopped, h]
      constructor
      · simp only [runSequence, hstop, if_true, reduceIte]
        exact List.nil_prefix
      · intro hle
        simp only [runSequence, hstop, if_true, reduceIte] at hle
        omega
    · have hstop : stopped (some k) pc = false := by
        simp only [stopped, decide_eq_false_iff_not]
        omega
      have hnstop : stopped none pc = false := rfl
      have he := exec_cancel_inv tm gs k c r (pc + 1)
      by_cases h2 : (executeCommand tm (some k) gs c r (pc + 1)).pc ≤ k
      · have heq : executeCommand tm (some k) gs c r (pc + 1) =
            executeCommand tm none gs c r (pc + 1) := he.2 h2
        have hr := seq_cancel_inv tm gs k cs
          (executeCommand tm (some k) gs c r (pc + 1)).robot
          (executeCommand tm (some k) gs c r (pc + 1)).pc
        constructor
        · simp only [runSequence, hstop, hnstop, Bool.false_eq_true,
            if_false, reduceIte]
          rw [← heq]
          exact prefix_append_same _ hr.1
        · intro hle
          simp only [runSequence, hstop, hnstop, Bool.false_eq_true,
            if_false, reduceIte] at hle ⊢
          rw [← heq]
          rw [hr.2 hle]
      · have h3 : k ≤ (executeCommand tm (some k) gs c r (pc + 1)).pc := by
          omega
        have hrest := runSequence_stopped tm gs k cs
          (executeCommand tm (some k) gs c r (pc + 1)).robot
          (executeCommand tm (some k) gs c r (pc + 1)).pc h3
        constructor
        · simp only [runSequence, hstop, hnstop, Bool.false_eq_true,
            if_false, reduceIte]
          rw [hrest.1]
          simp only [List.append_nil]
          exact he.1.trans (List.prefix_append _ _)
        · intro hle
          simp only [runSequence, hstop, hnstop, Bool.false_eq_true,
            if_false, reduceIte] at hle
          have hmono := hrest.2.2
          omega

end

/-! # Claims -/

/-- **C5.** For every pose and every MoveForward or MoveBackward
command with integer value `v`, the new position is the old position
plus `(cosDeg angle, sinDeg angle) * (v * cellSize * s)` with `s = +1`
for forward, `-1` for backward (`cosDeg`/`sinDeg` abstract
`cos/sin ∘ toRad`, the degree-to-radian conversion of the source), and
exactly one path sample equal to the new position is emitted; with
`value = 2`, `cellSize = GRID_SIZE = 40` and `angle = 0` the
displacement is `dx = 80`, `dy = 0`. -/
theorem C5_movement_geometry (tm : TrigModel) (stopAt : Option ℕ) (gs : ℚ)
    (i : ℕ) (v : ℤ) (ch : Option (List Command)) (r : RobotState) (pc : ℕ)
    (h : stopped stopAt pc = false)
    (hc : tm.cosDeg 0 = 1) (hs : tm.sinDeg 0 = 0) :
    (executeCommand tm stopAt gs (.mk i .FORWARD v ch) r pc =
      ⟨⟨r.x + tm.cosDeg r.angle * ((v : ℚ) * gs * 1),
        r.y + tm.sinDeg r.angle * ((v : ℚ) * gs * 1), r.angle, r.penDown⟩,
       [.delay,
        .poseUpdate ⟨r.x + tm.cosDeg r.angle * ((v : ℚ) * gs * 1),
          r.y + tm.sinDeg r.angle * ((v : ℚ) * gs * 1), r.angle, r.penDown⟩,
        .pathAppend ⟨r.x + tm.cosDeg r.angle * ((v : ℚ) * gs * 1),
          r.y + tm.sinDeg r.angle * ((v : ℚ) * gs * 1)⟩],
       pc + 1⟩) ∧
    (executeCommand tm stopAt gs (.mk i .BACKWARD v ch) r pc =
      ⟨⟨r.x + tm.cosDeg r.angle * ((v : ℚ) * gs * (-1)),
        r.y + tm.sinDeg r.angle * ((v : ℚ) * gs * (-1)), r.angle, r.penDown⟩,
       [.delay,
        .poseUpdate ⟨r.x + tm.cosDeg r.angle * ((v : ℚ) * gs * (-1)),
          r.y + tm.sinDeg r.angle * ((v : ℚ) * gs * (-1)), r.angle, r.penDown⟩,
        .pathAppend ⟨r.x + tm.cosDeg r.angle * ((v : ℚ) * gs * (-1)),
          r.y + tm.sinDeg r.angle * ((v : ℚ) * gs * (-1))⟩],
       pc + 1⟩) ∧
    (executeCommand tm none GRID_SIZE (.mk 7 .FORWARD 2 none)
        ⟨0, 0, 0, true⟩ 0).robot = ⟨80, 0, 0, true⟩ := by
  obtain ⟨rx, ry, ra, rp⟩ := r
  refine ⟨?_, ?_, ?_⟩
  · simp [executeCommand, h]
  · simp [executeCommand, h]
  · simp [executeCommand, stopped, GRID_SIZE, hc, hs]
    norm_num

/-- Witness for C5 at a concrete input: forward 2 cells from the
origin pose at angle 0 moves the robot to `(80, 0)`. -/
theorem C5_movement_geometry_witness :
    (executeCommand tmUnit none GRID_SIZE (.mk 7 .FORWARD 2 none)
        ⟨0, 0, 0, true⟩ 0).robot = ⟨80, 0, 0, true⟩ :=
  (C5_movement_geometry tmUnit none GRID_SIZE 7 2 none ⟨0, 0, 0, true⟩ 0
    rfl rfl rfl).2.2

/-- **C7.** For every pose and every TurnLeft or TurnRight command
with value `v`, the new angle is the old angle plus `v` for right and
minus `v` for left, with no normalization into any canonical range
(the plain rational sum is published unchanged), and no path sample is
appended. -/
theorem C7_turn_semantics (tm : TrigModel) (stopAt : Option ℕ) (gs : ℚ)
    (i : ℕ) (v : ℤ) (ch : Option (List Command)) (r : RobotState) (pc : ℕ)
    (h : stopped stopAt pc = false) :
    (executeCommand tm stopAt gs (.mk i .TURN_RIGHT v ch) r pc =
      ⟨⟨r.x, r.y, r.angle + (v : ℚ), r.penDown⟩,
       [.delay, .poseUpdate ⟨r.x, r.y, r.angle + (v : ℚ), r.penDown⟩],
       pc + 1⟩) ∧
    (executeCommand tm stopAt gs (.mk i .TURN_LEFT v ch) r pc =
      ⟨⟨r.x, r.y, r.angle - (v : ℚ), r.penDown⟩,
       [.delay, .poseUpdate ⟨r.x, r.y, r.angle - (v : ℚ), r.penDown⟩],
       pc + 1⟩) ∧
    pathOf (executeCommand tm stopAt gs (.mk i .TURN_RIGHT v ch) r pc).events
      = [] ∧
    pathOf (executeCommand tm stopAt gs (.mk i .TURN_LEFT v ch) r pc).events
      = [] := by
  obtain ⟨rx, ry, ra, rp⟩ := r
  refine ⟨?_, ?_, ?_, ?_⟩ <;> simp [executeCommand, h, pathOf, sub_eq_add_neg]

/-- Witness for C7 at a concrete input: turning right by 450 degrees
from angle 0 publishes angle 450 (not normalized), with no path
sample. -/
theorem C7_turn_semantics_witness :
    (executeCommand tmUnit none GRID_SIZE (.mk 3 .TURN_RIGHT 450 none)
        ⟨0, 0, 0, true⟩ 0 =
      ⟨⟨0, 0, 0 + (450 : ℚ), true⟩,
       [.delay, .poseUpdate ⟨0, 0, 0 + (450 : ℚ), true⟩], 1⟩) ∧
    pathOf (executeCommand tmUnit none GRID_SIZE (.mk 3 .TURN_RIGHT 450 none)
        ⟨0, 0, 0, true⟩ 0).events = [] :=
  ⟨(C7_turn_semantics tmUnit none GRID_SIZE 3 450 none ⟨0, 0, 0, true⟩ 0 rfl).1,
   (C7_turn_semantics tmUnit none GRID_SIZE 3 450 none ⟨0, 0, 0, true⟩ 0 rfl).2.2.1⟩

/-- **C9.** For every program and every identifier absent from the
tree, `remove(program, unknownId)` returns a program structurally
equal to the input (a silent no-op, never an error). -/
theorem C9_remove_unknown_noop (uid : ℕ) (l : List Command)
    (h : uid ∉ idsIn l) : recursiveFilter uid l = l := by
  induction l using recursiveFilter.induct uid with
  | case1 => simp [recursiveFilter]
  | case2 cs t v ch ih =>
    exfalso
    apply h
    cases ch <;> simp [idsIn, idsInCmd]
  | case3 cs i t v ch hne ih1 ih2 =>
    cases ch with
    | some l' =>
      simp only [idsIn, idsInCmd, List.mem_append, List.mem_cons, not_or] at h
      simp only [recursiveFilter, if_neg (Ne.symm h.1.1)]
      rw [ih1 h.1.2, ih2 h.2]
    | none =>
      simp only [idsIn, idsInCmd, List.mem_append, List.mem_cons, not_or] at h
      simp only [recursiveFilter, if_neg (Ne.symm h.1.1)]
      rw [ih2 h.2]

/-- Witness for C9: removing the absent identifier 5 from a program
with a nested `REPEAT` leaves it structurally unchanged. -/
theorem C9_remove_unknown_noop_witness :
    recursiveFilter 5 progNested = progNested :=
  C9_remove_unknown_noop 5 progNested
    (by simp [progNested, idsIn, idsInCmd])

/-- **C2 counterexample.** The identifier 10 resolves to an existing
`FORWARD` node — not a `Repeat` — yet `insert` is not a no-op: it
appends the new command as that leaf's `children`, giving a non-Repeat
node children (refuting "it never corrupts the tree"). -/
theorem C2_counterexample :
    insertCommand (some 10) (newCommand 99 .FORWARD)
        [.mk 10 .FORWARD 1 none] =
      [.mk 10 .FORWARD 1 (some [.mk 99 .FORWARD 1 none])] ∧
    (Command.mk 10 .FORWARD 1 none).ctype ≠ .REPEAT := by
  constructor
  · simp [insertCommand, updateTree, updateTreeGo, newCommand]
  · simp [Command.ctype]

/-- **C2 (amended).** `insert(program, containerId, command)` with a
container identifier absent from the tree returns the program
structurally unchanged (a no-op); but when the identifier matches an
existing node of *any* kind, the command is appended to that node's
children list (created as empty if absent), so a non-Repeat container
identifier corrupts the tree instead of being rejected. -/
theorem C2_insert_invalid_container (cid : ℕ) (cmd : Command) :
    (∀ (l : List Command), cid ∉ idsIn l →
      insertCommand (some cid) cmd l = l) ∧
    (∀ (t : CommandType) (v : ℤ) (ch : Option (List Command))
        (cs : List Command),
      insertCommand (some cid) cmd (.mk cid t v ch :: cs) =
        .mk cid t v (some (ch.getD [] ++ [cmd])) ::
          updateTreeGo cid (fun list => list ++ [cmd]) cs) := by
  constructor
  · intro l h
    exact updateTreeGo_absent_noop cid _ l h
  · intro t v ch cs
    show updateTreeGo cid (fun list => list ++ [cmd]) _ = _
    rw [updateTreeGo.eq_def]
    simp

/-- Witness for C2 (amended): inserting under the absent identifier 5
leaves the nested program unchanged, and inserting under identifier 1
(a `REPEAT` node at the head) appends to its children. -/
theorem C2_insert_invalid_container_witness :
    insertCommand (some 5) (newCommand 99 .FORWARD) progNested =
      progNested ∧
    insertCommand (some 1) (newCommand 99 .FORWARD) progNested =
      .mk 1 .REPEAT 2
          (some ([.mk 2 .FORWARD 1 none] ++ [newCommand 99 .FORWARD])) ::
        updateTreeGo 1 (fun list => list ++ [newCommand 99 .FORWARD])
          [.mk 3 .TURN_LEFT 90 none] :=
  ⟨(C2_insert_invalid_container 5 (newCommand 99 .FORWARD)).1 progNested
      (by simp [progNested, idsIn, idsInCmd]),
   (C2_insert_invalid_container 1 (newCommand 99 .FORWARD)).2 .REPEAT 2
      (some [.mk 2 .FORWARD 1 none]) [.mk 3 .TURN_LEFT 90 none]⟩

/-- **C3 counterexample.** `handleRun` invoked while a run is already
in progress (`isPlaying = true`) on a nonempty program is not a no-op:
it resets the path to the origin and executes the program. -/
theorem C3_counterexample :
    stPlaying.isPlaying = true ∧
    (handleRun tmUnit none stPlaying).path ≠ stPlaying.path := by
  constructor
  · rfl
  · simp [handleRun, stPlaying, runSequence, executeCommand, stopped,
      pathOf, posesOf, startPoint, START_X, START_Y, CANVAS_WIDTH,
      CANVAS_HEIGHT, Point.mk.injEq]

/-- **C3 (amended).** `start(program)` is a no-op whenever the program
is empty; but it is not guarded against a run already in progress:
`handleRun` never consults `isPlaying`, and on a nonempty program it
resets pose and path and executes regardless (in the application the
UI prevents this by replacing the Run button with Stop while
playing). -/
theorem C3_start_guards (tm : TrigModel) (stopAt : Option ℕ)
    (st : AppState) :
    (st.commands = [] → handleRun tm stopAt st = st) ∧
    (∀ (b₁ b₂ : Bool), st.commands ≠ [] →
      handleRun tm stopAt { st with isPlaying := b₁ } =
        handleRun tm stopAt { st with isPlaying := b₂ }) := by
  constructor
  · intro h
    obtain ⟨cmds, a, r, p, pl⟩ := st
    simp only at h
    subst h
    rfl
  · intro b₁ b₂ h
    obtain ⟨cmds, a, r, p, pl⟩ := st
    simp only at h
    match cmds, h with
    | c :: cs, _ => rfl

/-- Witness for C3 (amended): the empty program is a no-op, and on a
one-command program the already-playing and idle states produce the
same run. -/
theorem C3_start_guards_witness :
    handleRun tmUnit none ⟨[], none, ⟨0, 0, 0, true⟩, [⟨0, 0⟩], false⟩ =
      ⟨[], none, ⟨0, 0, 0, true⟩, [⟨0, 0⟩], false⟩ ∧
    handleRun tmUnit none { stPlaying with isPlaying := true } =
      handleRun tmUnit none { stPlaying with isPlaying := false } :=
  ⟨(C3_start_guards tmUnit none _).1 rfl,
   (C3_start_guards tmUnit none stPlaying).2 true false
      (by simp [stPlaying])⟩

/-- **C1 counterexample.** In `oprogPair` the `REPEAT` node (object
tag 0, id 10) is *not* on the path from the root to the updated node
(id 11, its sibling), yet after `update(program, 11, 5)` no node of
the result is that object: tag 0 is absent from the output, so the
off-path node is a fresh copy, refuting "every node not on the path is
referentially the same object". -/
theorem C1_counterexample :
    0 ∈ refsInList oprogPair ∧
    0 ∉ refsInList (updAllocList 11 5 oprogPair 2).1 := by
  constructor
  · simp [oprogPair, refsInList, refsInCmd]
  · simp [oprogPair, refsInList, refsInCmd, updAllocList, updAllocCmd]

/-- **C1 (amended).** After `update(program, commandId, newValue)`:
every node that carries no `children` field and is not the updated
node — at any depth — is referentially the same object as in the
input; but a fresh object is allocated (tag at or above the allocation
watermark `f₀`, hence distinct from every pre-existing object) for the
updated node *and for every children-bearing node outside the updated
node's subtree, even off the path from root to the updated node*; the
updated node keeps its `children` list shared and only its `value`
replaced. -/
theorem C1_update_sharing (uid : ℕ) (nv : ℤ) :
    (∀ (c : OCommand) (l : List OCommand), OccursIn c l →
        c.children = none → c.id ≠ uid →
        ∀ (f₀ : ℕ), OccursIn c (updAllocList uid nv l f₀).1) ∧
    (∀ (l : List OCommand) (f₀ : ℕ),
        List.Forall₂ (UpdFrame uid nv f₀) l (updAllocList uid nv l f₀).1) := by
  constructor
  · intro c l h
    induction h with
    | head cs =>
      intro hch hid f₀
      obtain ⟨ρ, i, t, v, ch⟩ := c
      simp only [OCommand.children] at hch
      simp only [OCommand.id] at hid
      subst hch
      simp only [updAllocList, updAllocCmd, hid, if_false, reduceIte]
      exact OccursIn.head _ _
    | tail hsub ih =>
      intro hch hid f₀
      simp only [updAllocList]
      exact OccursIn.tail (ih hch hid _)
    | @child ρ i t v l₀ cs hsub ih =>
      intro hch hid f₀
      by_cases hiu : i = uid
      · subst hiu
        simp only [updAllocList]
        simp [updAllocCmd]
        exact OccursIn.child hsub
      · simp only [updAllocList]
        simp only [updAllocCmd, hiu, if_false, reduceIte]
        exact OccursIn.child (ih hch hid f₀)
  · intro l
    induction l with
    | nil =>
      intro f₀
      simp only [updAllocList]
      exact List.Forall₂.nil
    | cons c cs ih =>
      intro f₀
      simp only [updAllocList]
      refine List.Forall₂.cons ?_ ?_
      · obtain ⟨ρ, i, t, v, ch⟩ := c
        by_cases hiu : i = uid
        · subst hiu
          rw [updAllocCmd.eq_def]
          simp only [if_pos rfl]
          exact ⟨fun _ hid => absurd rfl hid,
                 fun _ => le_refl _,
                 fun _ => ⟨rfl, rfl, rfl⟩⟩
        · cases ch with
          | some l₀ =>
            simp only [updAllocCmd, hiu, if_false, reduceIte]
            refine ⟨fun hch _ => by simp [OCommand.children] at hch,
                    fun _ => ?_,
                    fun hid => absurd hid hiu⟩
            exact updAllocList_mono uid nv l₀ f₀
          | none =>
            simp only [updAllocCmd, hiu, if_false, reduceIte]
            refine ⟨fun _ _ => rfl, fun hc => ?_, fun hid => absurd hid hiu⟩
            rcases hc with hc | hc
            · exact absurd rfl hc
            · exact absurd hc hiu
      · exact List.Forall₂.imp
          (fun a b hf => hf.mono (updAllocCmd_mono uid nv c f₀))
          (ih ((updAllocCmd uid nv c f₀).2))

/-- Witness for C1 (amended): in `oprogTriple` the leaf object 1
(id 12), nested inside the off-path `REPEAT`, survives `update` to
id 11 as the very same object, and every top-level node satisfies the
frame relation at watermark 3. -/
theorem C1_update_sharing_witness :
    OccursIn (.mk 1 12 .BACKWARD 3 none) (updAllocList 11 5 oprogTriple 3).1 ∧
    List.Forall₂ (UpdFrame 11 5 3) oprogTriple (updAllocList 11 5 oprogTriple 3).1 :=
  ⟨(C1_update_sharing 11 5).1 (.mk 1 12 .BACKWARD 3 none) oprogTriple
      (OccursIn.child (OccursIn.head _ _)) rfl (by decide) 3,
   (C1_update_sharing 11 5).2 oprogTriple 3⟩


/-- **C4 counterexample.** Run `[Forward 1, TurnRight 90]` and let the
stop land after the forward command's entry poll (stop index 2): the
forward command completes, the turn never executes (the cancelled
run's final angle is 0 where the full run reaches 90 — so the run was
halted mid-program), yet the two paths are *equal*: the cancelled Path
is a prefix but not a *strict* prefix of the full run's Path. -/
theorem C4_counterexample :
    pathOf (runSequence tmUnit (some 2) GRID_SIZE progMoveTurn
        ⟨0, 0, 0, true⟩ 0).events =
      pathOf (runSequence tmUnit none GRID_SIZE progMoveTurn
        ⟨0, 0, 0, true⟩ 0).events ∧
    (runSequence tmUnit (some 2) GRID_SIZE progMoveTurn
        ⟨0, 0, 0, true⟩ 0).robot.angle = 0 ∧
    (runSequence tmUnit none GRID_SIZE progMoveTurn
        ⟨0, 0, 0, true⟩ 0).robot.angle = 90 := by
  refine ⟨?_, ?_, ?_⟩ <;>
    simp [progMoveTurn, runSequence, executeCommand, stopped, pathOf,
      tmUnit, GRID_SIZE]

/-- **C4 (amended).** For every deterministic program, cancelling at
any point leaves a Path that is a prefix — not necessarily a strict
one — of the full uncancelled run's Path (the two coincide exactly
when only non-movement commands remained), and once the cancellation
flag is observable no further command executes at the current or any
enclosing nesting level: a sequence entered with the flag set emits no
events and leaves the pose untouched. -/
theorem C4_path_prefix_on_cancel (tm : TrigModel) (gs : ℚ) (k : ℕ)
    (l : List Command) (r : RobotState) :
    pathOf (runSequence tm (some k) gs l r 0).events <+:
      pathOf (runSequence tm none gs l r 0).events ∧
    (∀ (cs : List Command) (r' : RobotState) (pc : ℕ), k ≤ pc →
      (runSequence tm (some k) gs cs r' pc).events = [] ∧
      (runSequence tm (some k) gs cs r' pc).robot = r') := by
  constructor
  · exact pathOf_prefix_mono (seq_cancel_inv tm gs k l r 0).1
  · intro cs r' pc hk
    exact ⟨(runSequence_stopped tm gs k cs r' pc hk).1,
           (runSequence_stopped tm gs k cs r' pc hk).2.1⟩

/-- Witness for C4 (amended) at the concrete cancelled run of the
counterexample, and a sequence entered with the flag already set. -/
theorem C4_path_prefix_on_cancel_witness :
    pathOf (runSequence tmUnit (some 2) GRID_SIZE progMoveTurn
        ⟨0, 0, 0, true⟩ 0).events <+:
      pathOf (runSequence tmUnit none GRID_SIZE progMoveTurn
        ⟨0, 0, 0, true⟩ 0).events ∧
    (runSequence tmUnit (some 2) GRID_SIZE progMoveTurn
        ⟨0, 0, 0, true⟩ 5).events = [] :=
  ⟨(C4_path_prefix_on_cancel tmUnit GRID_SIZE 2 progMoveTurn
      ⟨0, 0, 0, true⟩).1,
   ((C4_path_prefix_on_cancel tmUnit GRID_SIZE 2 progMoveTurn
      ⟨0, 0, 0, true⟩).2 progMoveTurn ⟨0, 0, 0, true⟩ 5 (by omega)).1⟩

/-- **C6.** Executing a `Repeat` node with count `v` in an uncancelled
run runs its entire child sequence `v` times sequentially (the final
pose is the `v.toNat`-fold iterate of one full child-sequence pass,
and the trace is the concatenation of the per-pass traces, so passes
are not interleaved with siblings); nested `Repeat` nodes recurse the
same way since `l` is arbitrary; the `Repeat` node publishes no direct
pose update (its only own event is the suspension, so its pose updates
are exactly its descendants'); and `Repeat(3)` wrapping
`[TurnRight 90]` from angle 0 ends at angle 270 with no path sample
appended. -/
theorem C6_repeat_semantics (tm : TrigModel) (gs : ℚ) (i : ℕ) (v : ℤ)
    (l : List Command) (r : RobotState) (pc : ℕ) :
    (executeCommand tm none gs (.mk i .REPEAT v (some l)) r pc).robot =
      (fun s => (runSequence tm none gs l s 0).robot)^[v.toNat] r ∧
    (executeCommand tm none gs (.mk i .REPEAT v (some l)) r pc).events =
      .delay :: unrollEvents tm gs l v.toNat r ∧
    posesOf (executeCommand tm none gs (.mk i .REPEAT v (some l)) r pc).events
      = posesOf (unrollEvents tm gs l v.toNat r) ∧
    (executeCommand tm none GRID_SIZE
        (.mk 1 .REPEAT 3 (some [.mk 2 .TURN_RIGHT 90 none]))
        ⟨0, 0, 0, true⟩ 0).robot.angle = 270 ∧
    pathOf (executeCommand tm none GRID_SIZE
        (.mk 1 .REPEAT 3 (some [.mk 2 .TURN_RIGHT 90 none]))
        ⟨0, 0, 0, true⟩ 0).events = [] := by
  have hu := loop_none_unroll tm gs l v.toNat r (pc + 1)
  refine ⟨?_, ?_, ?_, ?_, ?_⟩
  · simp only [executeCommand, stopped, Bool.false_eq_true, if_false,
      reduceIte]
    exact hu.1
  · simp only [executeCommand, stopped, Bool.false_eq_true, if_false,
      reduceIte]
    rw [hu.2]
  · simp only [executeCommand, stopped, Bool.false_eq_true, if_false,
      reduceIte]
    rw [hu.2]
    simp [posesOf]
  · simp [executeCommand, repeatLoop, runSequence, stopped]
    norm_num
  · simp [executeCommand, repeatLoop, runSequence, stopped, pathOf]

/-- **C8.** Path and pose-update invariants: over a full run, exactly
one pose update is published per leaf command executed and exactly one
path sample per movement leaf (none for turns, none directly for
`Repeat`); each non-`Repeat` leaf publishes exactly one pose update —
the new pose — within its own step; a sequence's trace is the executed
command's trace followed by the rest, so all of a leaf's publications
precede the next command's; and the published path of a run is the
origin point followed by the trace's appends in order (starts with the
origin, grows only by appending, reset only by the explicit
pose/path reset). -/
theorem C8_path_invariants (tm : TrigModel) (stopAt : Option ℕ) (gs : ℚ) :
    (∀ (l : List Command) (r : RobotState) (pc : ℕ),
      (posesOf (runSequence tm none gs l r pc).events).length =
        countLeaves l ∧
      (pathOf (runSequence tm none gs l r pc).events).length =
        countMoves l) ∧
    (∀ (i : ℕ) (t : CommandType) (v : ℤ) (ch : Option (List Command))
        (r : RobotState) (pc : ℕ), t ≠ .REPEAT →
      stopped stopAt pc = false →
      posesOf (executeCommand tm stopAt gs (.mk i t v ch) r pc).events =
        [(executeCommand tm stopAt gs (.mk i t v ch) r pc).robot]) ∧
    (∀ (c : Command) (cs : List Command) (r : RobotState) (pc : ℕ),
      stopped stopAt pc = false →
      (runSequence tm stopAt gs (c :: cs) r pc).events =
        (executeCommand tm stopAt gs c r (pc + 1)).events ++
          (runSequence tm stopAt gs cs
            (executeCommand tm stopAt gs c r (pc + 1)).robot
            (executeCommand tm stopAt gs c r (pc + 1)).pc).events) ∧
    (∀ (st : AppState), st.commands ≠ [] →
      (handleRun tm stopAt st).path =
        startPoint ::
          pathOf (runSequence tm stopAt GRID_SIZE st.commands
            startRobot 0).events) := by
  refine ⟨?_, ?_, ?_, ?_⟩
  · intro l r pc
    exact seq_none_counts tm gs l r pc
  · intro i t v ch r pc hne hs
    cases t with
    | REPEAT => exact absurd rfl hne
    | FORWARD => simp [executeCommand, hs, posesOf]
    | BACKWARD => simp [executeCommand, hs, posesOf]
    | TURN_LEFT => simp [executeCommand, hs, posesOf]
    | TURN_RIGHT => simp [executeCommand, hs, posesOf]
  · intro c cs r pc hs
    simp only [runSequence, hs, Bool.false_eq_true, if_false, reduceIte]
  · intro st hne
    obtain ⟨cmds, a, r, p, pl⟩ := st
    simp only at hne ⊢
    match cmds, hne with
    | c :: cs, _ => rfl

/-- Witness for C8: a concrete forward leaf publishes exactly one pose
update, and a concrete run's published path is the origin point
followed by the trace's appends. -/
theorem C8_path_invariants_witness :
    posesOf (executeCommand tmUnit none GRID_SIZE (.mk 1 .FORWARD 1 none)
        ⟨0, 0, 0, true⟩ 0).events =
      [(executeCommand tmUnit none GRID_SIZE (.mk 1 .FORWARD 1 none)
        ⟨0, 0, 0, true⟩ 0).robot] ∧
    (handleRun tmUnit none stPlaying).path =
      startPoint :: pathOf (runSequence tmUnit none GRID_SIZE
        stPlaying.commands startRobot 0).events :=
  ⟨(C8_path_invariants tmUnit none GRID_SIZE).2.1 1 .FORWARD 1 none
      ⟨0, 0, 0, true⟩ 0 (by decide) rfl,
   (C8_path_invariants tmUnit none GRID_SIZE).2.2.2 stPlaying
      (by simp [stPlaying])⟩

/-- **C10.** The cancellation flag is polled once on entry to each
command, before the inter-step suspension: a non-`Repeat` command
whose entry poll read `false` behaves exactly as in an uncancelled
run — its full geometric effect, pose update and (for movement) path
append happen no matter how soon afterwards the stop is requested;
a command entered with the flag observable returns before the
suspension with no events; and the enclosing sequence then halts at
the very next command boundary, executing nothing further. -/
theorem C10_poll_on_entry (tm : TrigModel) (gs : ℚ) (k : ℕ)
    (c : Command) (cs : List Command) (r : RobotState) (pc : ℕ) :
    (c.ctype ≠ .REPEAT → stopped (some k) pc = false →
      executeCommand tm (some k) gs c r pc =
        executeCommand tm none gs c r pc) ∧
    (k ≤ pc → executeCommand tm (some k) gs c r pc = ⟨r, [], pc + 1⟩) ∧
    (k ≤ pc → runSequence tm (some k) gs (c :: cs) r pc = ⟨r, [], pc + 1⟩) := by
  refine ⟨?_, ?_, ?_⟩
  · intro hne hs
    have hnstop : stopped none pc = false := rfl
    obtain ⟨i, t, v, ch⟩ := c
    cases t with
    | REPEAT => simp [Command.ctype] at hne
    | FORWARD => simp [executeCommand, hs, hnstop]
    | BACKWARD => simp [executeCommand, hs, hnstop]
    | TURN_LEFT => simp [executeCommand, hs, hnstop]
    | TURN_RIGHT => simp [executeCommand, hs, hnstop]
  · intro hk
    exact executeCommand_stopped tm gs k c r pc hk
  · intro hk
    have hstop : stopped (some k) pc = true := by simp [stopped, hk]
    simp [runSequence, hstop]

/-- Witness for C10: a forward command whose entry poll passed (stop
index 5, counter 0) runs exactly as uncancelled, and a sequence
entered after the stop index executes nothing. -/
theorem C10_poll_on_entry_witness :
    executeCommand tmUnit (some 5) GRID_SIZE (.mk 1 .FORWARD 1 none)
        ⟨0, 0, 0, true⟩ 0 =
      executeCommand tmUnit none GRID_SIZE (.mk 1 .FORWARD 1 none)
        ⟨0, 0, 0, true⟩ 0 ∧
    runSequence tmUnit (some 5) GRID_SIZE progMoveTurn ⟨0, 0, 0, true⟩ 7 =
      ⟨⟨0, 0, 0, true⟩, [], 8⟩ :=
  ⟨(C10_poll_on_entry tmUnit GRID_SIZE 5 (.mk 1 .FORWARD 1 none) []
      ⟨0, 0, 0, true⟩ 0).1 (by decide) rfl,
   (C10_poll_on_entry tmUnit GRID_SIZE 5 (.mk 1 .FORWARD 1 none)
      [.mk 2 .TURN_RIGHT 90 none] ⟨0, 0, 0, true⟩ 7).2.2 (by omega)⟩

end RoboDibuix
